import Mathlib

/-!
Verification development for the WebShare Relay core
(capture → durable handoff → relay → log pipeline).

Shallow embedding of:
  * src/src/lib/storage.ts  — config, log store, handoff (IndexedDB) store
  * src/src/lib/forwarder.ts — forwardShare and updateLogStatus
  * src/src/App.tsx          — onMount session flow and performRelay

Storage cells are modelled explicitly: a cell is absent, holds an
unparsable value (JSON.parse throws), or holds a parsed value.  The
possibility of the underlying storage API itself failing is modelled by
health flags; an operation that the source wraps in try/catch recovers
such a failure, an operation the source leaves unguarded surfaces it as
an `Except.error` (a propagated exception).
-/

namespace WebShareRelay

/-- Status of a log entry: 'success' | 'error' | 'pending'. -/
inductive Status where
  | pending
  | success
  | error
deriving DecidableEq, Repr

/-- The redacted payload summary stored in a LogEntry
    ({title, text, url, filesCount}); holds no file bytes. -/
structure LogPayload where
  title : String
  text : String
  url : String
  filesCount : Nat
deriving DecidableEq, Repr

/-- One shared file: {name, type (MIME), data (base64 string)}. -/
structure SharedFile where
  name : String
  type : String
  data : String
deriving DecidableEq, Repr

/-- LogEntry from storage.ts. -/
structure LogEntry where
  id : String
  timestamp : Nat
  status : Status
  payload : LogPayload
  response : Option String
  error : Option String
deriving DecidableEq, Repr

/-- LogEntry minus its id, the argument type of addLog
    (Omit<LogEntry, 'id'>). -/
structure LogEntryNoId where
  timestamp : Nat
  status : Status
  payload : LogPayload
  response : Option String
  error : Option String
deriving DecidableEq, Repr

/-- ShareData from storage.ts. -/
structure ShareData where
  title : String
  text : String
  url : String
  files : List SharedFile
  timestamp : Nat
deriving DecidableEq, Repr

/-- The outbound JSON document built by forwardShare (ForwardPayload). -/
structure ForwardPayload where
  title : Option String
  text : Option String
  url : Option String
  files : List SharedFile
deriving DecidableEq, Repr

/-- ForwardResult from forwarder.ts. -/
structure ForwardResult where
  success : Bool
  response : Option String
  error : Option String
deriving DecidableEq, Repr

/-- State of the localStorage region under LOGS_KEY:
    key absent, unparsable stored text, or a parsed entry list. -/
inductive LogsCell where
  | absent
  | corrupt
  | val (logs : List LogEntry)
deriving DecidableEq, Repr

/-- Health of the localStorage API for the logs region.  `readFails`:
    getItem throws; `writeFails`: setItem throws (quota exceeded /
    storage unavailable). -/
structure LogsHealth where
  readFails : Bool
  writeFails : Bool
deriving DecidableEq, Repr

/-- Fully operational logs storage. -/
def okLogs : LogsHealth := ⟨false, false⟩

/-- localStorage.getItem(LOGS_KEY): throws when the API is failing. -/
def readLogsRaw (h : LogsHealth) (c : LogsCell) : Except Unit LogsCell :=
  if h.readFails then .error () else .ok c

/-- localStorage.setItem(LOGS_KEY, JSON.stringify(logs)): throws when
    the API is failing, else the cell now holds the list. -/
def writeLogs (h : LogsHealth) (logs : List LogEntry) : Except Unit LogsCell :=
  if h.writeFails then .error () else .ok (.val logs)

/-- MAX_LOGS = 50. -/
def MAX_LOGS : Nat := 50

/-- getLogs from storage.ts: try { read; if present, parse } catch {};
    return [] in every non-value case.  Total: never raises. -/
def getLogs (h : LogsHealth) (c : LogsCell) : List LogEntry :=
  match readLogsRaw h c with
  | .error _ => []
  | .ok .absent => []
  | .ok .corrupt => []
  | .ok (.val logs) => logs

/-- The id scheme of addLog: `Date.now() + "-" + random-base36-suffix`,
    a time component combined with a random component. -/
def genId (now : Nat) (rand : String) : String :=
  toString now ++ "-" ++ rand

/-- Attach a generated id to an entry (the {...entry, id} spread). -/
def withId (e : LogEntryNoId) (id : String) : LogEntry :=
  ⟨id, e.timestamp, e.status, e.payload, e.response, e.error⟩

/-- The list transform of addLog: logs.unshift(newEntry) followed by
    `if (logs.length > MAX_LOGS) logs.length = MAX_LOGS`. -/
def addLogList (e : LogEntry) (logs : List LogEntry) : List LogEntry :=
  let logs1 := e :: logs
  if logs1.length > MAX_LOGS then logs1.take MAX_LOGS else logs1

/-- addLog from storage.ts.  The read part (getLogs) recovers its own
    failures; the final setItem is NOT inside a try/catch in the source,
    so a write failure propagates as an exception (`Except.error`). -/
def addLog (h : LogsHealth) (c : LogsCell) (entry : LogEntryNoId)
    (now : Nat) (rand : String) : Except Unit (LogsCell × LogEntry) := do
  let logs := getLogs h c
  let newEntry := withId entry (genId now rand)
  let newLogs := addLogList newEntry logs
  let c2 ← writeLogs h newLogs
  pure (c2, newEntry)

/-- clearLogs: localStorage.removeItem(LOGS_KEY). -/
def clearLogs : LogsCell := .absent

/-- The status argument type of updateLogStatus: 'success' | 'error'
    ('pending' is not accepted). -/
inductive TermStatus where
  | success
  | error
deriving DecidableEq, Repr

def TermStatus.toStatus : TermStatus → Status
  | .success => .success
  | .error => .error

/-- Overwrite only when supplied: `if (x !== undefined) field = x`. -/
def overwriteIfSome (newv old : Option String) : Option String :=
  match newv with
  | some v => some v
  | none => old

/-- The list transform of updateLogStatus: findIndex by id; if found,
    set status and the supplied optional fields of that entry only. -/
def updateLogsList (logs : List LogEntry) (id : String) (st : TermStatus)
    (resp err : Option String) : List LogEntry :=
  match logs.findIdx? (fun l => l.id == id) with
  | none => logs
  | some i =>
    match logs[i]? with
    | none => logs
    | some l =>
      logs.set i { l with status := st.toStatus,
                          response := overwriteIfSome resp l.response,
                          error := overwriteIfSome err l.error }

/-- updateLogStatus from forwarder.ts.  The whole body (read, parse,
    findIndex, setItem) is inside one try/catch, so every failure path
    and the missing-id path leave the cell unchanged; total, never
    raises. -/
def updateLogStatus (h : LogsHealth) (c : LogsCell) (id : String)
    (st : TermStatus) (resp err : Option String) : LogsCell :=
  match readLogsRaw h c with
  | .error _ => c
  | .ok .absent => c
  | .ok .corrupt => c
  | .ok (.val logs) =>
    if (logs.findIdx? (fun l => l.id == id)).isSome then
      match writeLogs h (updateLogsList logs id st resp err) with
      | .error _ => c
      | .ok c2 => c2
    else c

/-- Observable outcome of the try block's network interaction in
    forwardShare: either the awaited fetch (or reading the body) threw —
    carrying `some msg` when the thrown value was an Error instance,
    `none` otherwise — or a response completed with an HTTP status and a
    body read as text. -/
inductive FetchOutcome where
  | networkError (msg : Option String)
  | response (status : Nat) (body : String)
deriving DecidableEq, Repr

/-- The fetch API response.ok flag: status in the inclusive range
    200–299. -/
def responseOk (status : Nat) : Bool :=
  decide (200 ≤ status) && decide (status ≤ 299)

/-- JavaScript `s || null` on a string: empty is falsy. -/
def strOrNull (s : String) : Option String :=
  if s = "" then none else some s

/-- JavaScript `s || ''` on a string. -/
def strOrEmpty (s : String) : String :=
  if s = "" then "" else s

/-- The outbound JSON document of forwardShare: title/text/url mapped
    through `|| null`, files passed through (`data.files || []`; `files`
    is a non-null array, so this is the array itself, each base64 `data`
    string unmodified). -/
def mkForwardPayload (d : ShareData) : ForwardPayload :=
  { title := strOrNull d.title
    text := strOrNull d.text
    url := strOrNull d.url
    files := d.files }

/-- The redacted log payload of forwardShare: title/text/url mapped
    through `|| ''`, filesCount = `data.files?.length || 0` (files is a
    non-null array, so this is its length). -/
def mkLogPayload (d : ShareData) : LogPayload :=
  { title := strOrEmpty d.title
    text := strOrEmpty d.text
    url := strOrEmpty d.url
    filesCount := d.files.length }

/-- The POST issued by forwardShare: destination URL, Content-Type
    header, JSON body. -/
structure PostedRequest where
  url : String
  contentType : String
  body : ForwardPayload
deriving DecidableEq, Repr

/-- forwardShare from forwarder.ts, as a function of the share, the
    target URL, the id-generation inputs, the network outcome, and the
    logs storage.  Returns the ForwardResult, the final logs cell and
    the request that was POSTed.  addLog runs before the try block, so
    its write failure propagates (`Except.error`: the forwardShare
    promise rejects); all three outcome paths call updateLogStatus
    exactly once on the created entry's id and return. -/
def forwardShare (d : ShareData) (forwardUrl : String) (now : Nat)
    (rand : String) (outcome : FetchOutcome) (h : LogsHealth)
    (c : LogsCell) : Except Unit (ForwardResult × LogsCell × PostedRequest) := do
  let payload := mkForwardPayload d
  let (c1, logEntry) ← addLog h c
    ⟨now, .pending, mkLogPayload d, none, none⟩ now rand
  let req : PostedRequest := ⟨forwardUrl, "application/json", payload⟩
  match outcome with
  | .networkError m =>
    let errorMessage := m.getD "Unknown error"
    let c2 := updateLogStatus h c1 logEntry.id .error none (some errorMessage)
    pure (⟨false, none, some errorMessage⟩, c2, req)
  | .response st responseText =>
    if responseOk st then
      let c2 := updateLogStatus h c1 logEntry.id .success (some responseText) none
      pure (⟨true, some responseText, none⟩, c2, req)
    else
      let msg := "HTTP " ++ toString st ++ ": " ++ responseText
      let c2 := updateLogStatus h c1 logEntry.id .error none (some msg)
      pure (⟨false, none, some msg⟩, c2, req)

/-- Health of the IndexedDB share-target store.  `openFails`: the
    awaited openShareDB rejects; `getRequestFails`: the store opened but
    the get request errors; `deleteFails`: the delete request errors. -/
structure HandoffHealth where
  openFails : Bool
  getRequestFails : Bool
  deleteFails : Bool
deriving DecidableEq, Repr

/-- Fully operational handoff storage. -/
def okHandoff : HandoffHealth := ⟨false, false, false⟩

/-- getPendingShareData from storage.ts.  The awaited openShareDB is
    inside the try, so an open failure is caught and yields null.  The
    inner `new Promise` is RETURNED, not awaited, inside the try: its
    later rejection (request.onerror) is outside the catch and the call
    rejects (`Except.error`).  On success, `request.result || null`. -/
def getPendingShareData (h : HandoffHealth) (slot : Option ShareData) :
    Except Unit (Option ShareData) :=
  if h.openFails then .ok none
  else if h.getRequestFails then .error ()
  else .ok slot

/-- clearPendingShareData from storage.ts: open inside try (open failure
    caught, slot untouched); the delete request is fire-and-forget, so a
    failing delete leaves the slot while still returning normally. -/
def clearPendingShareData (h : HandoffHealth) (slot : Option ShareData) :
    Option ShareData :=
  if h.openFails then slot
  else if h.deleteFails then slot
  else none

/-- Config as used by App.tsx: { relayUrl, autoRelay }. -/
structure Config where
  relayUrl : String
  autoRelay : Bool
deriving DecidableEq, Repr

/-- Default Config: empty URL, auto-relay off. -/
def defaultConfig : Config := ⟨"", false⟩

/-- State of the localStorage region under CONFIG_KEY for the Config
    record: absent, unparsable, or a stored Config value. -/
inductive ConfigCell where
  | absent
  | corrupt
  | val (cfg : Config)
deriving DecidableEq, Repr

/-- Modelled from the spec: `getConfig` — the Configuration Store load
    operation called by App.tsx — is missing from src/ (the storage.ts
    present in src/ still holds the older single-field `getForwardUrl`).
    Per the spec, load returns the defaults {relayUrl: "", autoRelay:
    false} if unset or on any read failure, and otherwise the last saved
    Config; it is total and never raises. -/
def getConfig (readFails : Bool) (c : ConfigCell) : Config :=
  if readFails then defaultConfig
  else
    match c with
    | .absent => defaultConfig
    | .corrupt => defaultConfig
    | .val cfg => cfg

/-- State of the localStorage region under CONFIG_KEY as the older
    source getForwardUrl sees it: the stored JSON object's forwardUrl
    field may be missing (`none`). -/
inductive ForwardConfigCell where
  | absent
  | corrupt
  | val (forwardUrl : Option String)
deriving DecidableEq, Repr

/-- getForwardUrl from storage.ts: try { read; if present, parse and
    return `parsed.forwardUrl || ''` } catch {}; return '' in every
    non-value case.  Total: never raises. -/
def getForwardUrl (readFails : Bool) (c : ForwardConfigCell) : String :=
  if readFails then ""
  else
    match c with
    | .absent => ""
    | .corrupt => ""
    | .val fu => strOrEmpty (fu.getD "")

/-- Result of the onMount share-handling flow of App.tsx. -/
structure SessionOutcome where
  relayInvoked : Bool
  handoffSlot : Option ShareData
  logsCell : LogsCell
  forwardResult : Option ForwardResult
deriving DecidableEq, Repr

/-- performRelay from App.tsx: await forwardShare, record its result,
    then await clearPendingShareData unconditionally. -/
def performRelay (share : ShareData) (url : String) (now : Nat)
    (rand : String) (outcome : FetchOutcome) (lh : LogsHealth)
    (c : LogsCell) (hh : HandoffHealth) (slot : Option ShareData) :
    Except Unit SessionOutcome := do
  let (result, c2, _req) ← forwardShare share url now rand outcome lh c
  let slot2 := clearPendingShareData hh slot
  pure ⟨true, slot2, c2, some result⟩

/-- The share-handling part of App.tsx onMount: if the activation URL
    carries share-target=pending, await getPendingShareData; if a share
    is present and `config.autoRelay && config.relayUrl` (non-empty
    string is truthy), await performRelay immediately; otherwise leave
    the share pending for explicit user action. -/
def onMountShareFlow (marker : Bool) (cfg : Config) (hh : HandoffHealth)
    (slot : Option ShareData) (lh : LogsHealth) (c : LogsCell)
    (now : Nat) (rand : String) (outcome : FetchOutcome) :
    Except Unit SessionOutcome :=
  if marker then
    match getPendingShareData hh slot with
    | .error e => .error e
    | .ok none => .ok ⟨false, slot, c, none⟩
    | .ok (some shareData) =>
      if cfg.autoRelay && !(cfg.relayUrl == "") then
        performRelay shareData cfg.relayUrl now rand outcome lh c hh slot
      else .ok ⟨false, slot, c, none⟩
  else .ok ⟨false, slot, c, none⟩

/-!
Trace model for the log store.  The operations the system ever applies
to the stored log sequence are exactly: the append of a fresh pending
entry performed by a relay dispatch (forwardShare is the only addLog
caller, and it always appends status 'pending'), the single terminal
update performed when that relay settles (updateLogStatus only accepts
'success' | 'error'), and clearLogs.  `applyOp` reuses the list
transforms of addLog and updateLogStatus.
-/

/-- One log-store operation as issued by the system. -/
inductive LogOp where
  | append (id : String) (ts : Nat) (payload : LogPayload)
  | settle (id : String) (st : TermStatus) (resp err : Option String)
  | clear
deriving DecidableEq, Repr

/-- Effect of one operation on the stored entry list. -/
def applyOp (logs : List LogEntry) : LogOp → List LogEntry
  | .append id ts payload => addLogList ⟨id, ts, .pending, payload, none, none⟩ logs
  | .settle id st resp err => updateLogsList logs id st resp err
  | .clear => []

/-- Run a sequence of operations from a starting list. -/
def applyOps (logs : List LogEntry) (ops : List LogOp) : List LogEntry :=
  ops.foldl applyOp logs

/-- Run a sequence of operations from the empty (initial) log. -/
def runOps (ops : List LogOp) : List LogEntry :=
  applyOps [] ops

/-- Status of the entry with a given id, as the store reports it
    (first match, newest first). -/
def statusOf (logs : List LogEntry) (id : String) : Option Status :=
  (logs.find? (fun l => l.id == id)).map (fun l => l.status)

/-- Ids of the append operations of a trace. -/
def appendIds (ops : List LogOp) : List String :=
  ops.filterMap (fun op => match op with
    | .append id _ _ => some id
    | _ => none)

/-- Ids of the settle operations of a trace. -/
def settleIds (ops : List LogOp) : List String :=
  ops.filterMap (fun op => match op with
    | .settle id _ _ _ => some id
    | _ => none)

/-- The id an operation touches (clear touches the whole store). -/
def LogOp.targetId : LogOp → Option String
  | .append id _ _ => some id
  | .settle id _ _ _ => some id
  | .clear => none

/-! ### Helper lemmas -/

/-- The unshift-then-truncate of addLog is a take of the prepended
    list. -/
theorem addLogList_eq_take (e : LogEntry) (l : List LogEntry) :
    addLogList e l = (e :: l).take MAX_LOGS := by
  unfold addLogList
  by_cases h : (e :: l).length > MAX_LOGS
  · simp [h]
  · simp only [h, if_false]
    exact (List.take_of_length_le (Nat.le_of_not_lt h)).symm

/-- addLog on writable storage: persists the prepended, truncated list
    and returns the new entry. -/
theorem addLog_ok (h : LogsHealth) (hw : h.writeFails = false)
    (c : LogsCell) (e : LogEntryNoId) (now : Nat) (rand : String) :
    addLog h c e now rand =
      .ok (.val ((withId e (genId now rand) :: getLogs h c).take MAX_LOGS),
           withId e (genId now rand)) := by
  simp [addLog, writeLogs, hw, addLogList_eq_take, Except.bind]

/-- Taking MAX_LOGS of a cons keeps the head. -/
theorem take_maxLogs_cons (x : LogEntry) (l : List LogEntry) :
    (x :: l).take MAX_LOGS = x :: l.take (MAX_LOGS - 1) := rfl

/-- Binding a successful Except value just applies the continuation. -/
theorem exceptOk_bind {α β : Type} (x : α) (f : α → Except Unit β) :
    (do let y ← (Except.ok x : Except Unit α); f y) = f x := rfl

/-- updateLogStatus on a healthy cell whose head is the target entry:
    the head's status and supplied fields are set, the tail untouched. -/
theorem updateLogStatus_val_head (e : LogEntry) (l : List LogEntry)
    (st : TermStatus) (resp err : Option String) (id : String)
    (hid : e.id = id) :
    updateLogStatus okLogs (.val (e :: l)) id st resp err =
      .val ({ e with status := st.toStatus,
                     response := overwriteIfSome resp e.response,
                     error := overwriteIfSome err e.error } :: l) := by
  subst hid
  simp [updateLogStatus, readLogsRaw, okLogs, writeLogs, updateLogsList,
    List.findIdx?_cons]

/-! ### Claim theorems -/

/-- Claim C1: for every starting log sequence, append assigns a fresh
    id (a time component joined to a random component), prepends the
    new entry, truncates the sequence to its first 50 elements, persists
    it, and returns the assigned entry; the resulting length never
    exceeds 50, and appending to a log already holding 50 entries drops
    the oldest (last) entry and yields exactly 50 entries. -/
theorem addLog_spec (h : LogsHealth) (c : LogsCell) (e : LogEntryNoId)
    (now : Nat) (rand : String) (hw : h.writeFails = false) :
    addLog h c e now rand =
      .ok (.val ((withId e (genId now rand) :: getLogs h c).take MAX_LOGS),
           withId e (genId now rand)) ∧
    (withId e (genId now rand)).id = toString now ++ "-" ++ rand ∧
    ((withId e (genId now rand) :: getLogs h c).take MAX_LOGS).length ≤ MAX_LOGS ∧
    ((getLogs h c).length = MAX_LOGS →
      (withId e (genId now rand) :: getLogs h c).take MAX_LOGS =
        withId e (genId now rand) :: (getLogs h c).dropLast ∧
      ((withId e (genId now rand) :: getLogs h c).take MAX_LOGS).length = MAX_LOGS) := by
  refine ⟨addLog_ok h hw c e now rand, rfl, ?_, ?_⟩
  · simp [List.length_take]
  · intro hl
    constructor
    · rw [take_maxLogs_cons, List.dropLast_eq_take, hl]
    · simp [List.length_take, hl]

/-- Concrete run of addLog_spec: appending to an empty store. -/
theorem addLog_spec_witness :
    okLogs.writeFails = false ∧
    addLog okLogs .absent ⟨5, .pending, ⟨"t", "x", "u", 0⟩, none, none⟩ 7 "r" =
      .ok (.val [⟨genId 7 "r", 5, .pending, ⟨"t", "x", "u", 0⟩, none, none⟩],
           ⟨genId 7 "r", 5, .pending, ⟨"t", "x", "u", 0⟩, none, none⟩) := by
  refine ⟨rfl, ?_⟩
  have h := (addLog_spec okLogs .absent ⟨5, .pending, ⟨"t", "x", "u", 0⟩, none, none⟩
    7 "r" rfl).1
  simpa [getLogs, readLogsRaw, okLogs, withId] using h

/-- Claim C3: when the relay attempt does not succeed — the request
    throws, or a completed response has a non-2xx status — forwardShare
    returns {success:false, error:msg} and the log entry created for the
    attempt ends with status error and that same message; for a
    completed non-2xx response the message is "HTTP <status>: <body>". -/
theorem forwardShare_failure (d : ShareData) (u : String) (now : Nat)
    (rand : String) (c : LogsCell) :
    (∀ m : Option String,
      forwardShare d u now rand (.networkError m) okLogs c =
        .ok (⟨false, none, some (m.getD "Unknown error")⟩,
             .val (⟨genId now rand, now, .error, mkLogPayload d, none,
                    some (m.getD "Unknown error")⟩ ::
                   (getLogs okLogs c).take (MAX_LOGS - 1)),
             ⟨u, "application/json", mkForwardPayload d⟩)) ∧
    (∀ (st : Nat) (body : String), ¬(200 ≤ st ∧ st ≤ 299) →
      forwardShare d u now rand (.response st body) okLogs c =
        .ok (⟨false, none, some ("HTTP " ++ toString st ++ ": " ++ body)⟩,
             .val (⟨genId now rand, now, .error, mkLogPayload d, none,
                    some ("HTTP " ++ toString st ++ ": " ++ body)⟩ ::
                   (getLogs okLogs c).take (MAX_LOGS - 1)),
             ⟨u, "application/json", mkForwardPayload d⟩)) := by
  have ha := addLog_ok okLogs rfl c ⟨now, .pending, mkLogPayload d, none, none⟩ now rand
  constructor
  · intro m
    simp only [forwardShare, ha, take_maxLogs_cons, exceptOk_bind, withId]
    rw [updateLogStatus_val_head _ _ _ _ _ _ rfl]
    simp only [overwriteIfSome, TermStatus.toStatus]
    rfl
  · intro st body hst
    have hok : responseOk st = false := by
      simp only [responseOk]
      rcases Nat.lt_or_ge st 200 with h1 | h1
      · simp [Nat.not_le_of_lt h1]
      · have h2 : ¬ st ≤ 299 := fun h2 => hst ⟨h1, h2⟩
        simp [h2]
    simp only [forwardShare, ha, take_maxLogs_cons, exceptOk_bind, withId, hok,
      Bool.false_eq_true, if_false]
    rw [updateLogStatus_val_head _ _ _ _ _ _ rfl]
    simp only [overwriteIfSome, TermStatus.toStatus]
    rfl

/-- Concrete run of forwardShare_failure: a 500 "oops" response yields
    error "HTTP 500: oops" in both the result and the log entry. -/
theorem forwardShare_failure_witness :
    ¬((200 : Nat) ≤ 500 ∧ (500 : Nat) ≤ 299) ∧
    forwardShare ⟨"", "hi", "", [], 3⟩ "http://x" 7 "r" (.response 500 "oops") okLogs .absent =
      .ok (⟨false, none, some "HTTP 500: oops"⟩,
           .val [⟨genId 7 "r", 7, .error, mkLogPayload ⟨"", "hi", "", [], 3⟩, none,
                  some "HTTP 500: oops"⟩],
           ⟨"http://x", "application/json", mkForwardPayload ⟨"", "hi", "", [], 3⟩⟩) := by
  refine ⟨by decide, ?_⟩
  have h := (forwardShare_failure ⟨"", "hi", "", [], 3⟩ "http://x" 7 "r" .absent).2
    500 "oops" (by decide)
  simpa [getLogs, readLogsRaw, okLogs] using h

/-- Claim C4: when the outbound request completes with any 2xx status,
    forwardShare stores the response body as opaque text: the log entry
    created for the attempt ends with status success and response equal
    to the body, and the result is {success:true, response:<body>}. -/
theorem forwardShare_success (d : ShareData) (u : String) (now : Nat)
    (rand : String) (c : LogsCell) (st : Nat) (body : String)
    (h2 : 200 ≤ st) (h3 : st ≤ 299) :
    forwardShare d u now rand (.response st body) okLogs c =
      .ok (⟨true, some body, none⟩,
           .val (⟨genId now rand, now, .success, mkLogPayload d, some body, none⟩ ::
                 (getLogs okLogs c).take (MAX_LOGS - 1)),
           ⟨u, "application/json", mkForwardPayload d⟩) := by
  have ha := addLog_ok okLogs rfl c ⟨now, .pending, mkLogPayload d, none, none⟩ now rand
  have hok : responseOk st = true := by simp [responseOk, h2, h3]
  simp only [forwardShare, ha, take_maxLogs_cons, exceptOk_bind, withId, hok, if_true]
  rw [updateLogStatus_val_head _ _ _ _ _ _ rfl]
  simp only [overwriteIfSome, TermStatus.toStatus]
  rfl

/-- Concrete run of forwardShare_success: a 200 response body is stored
    verbatim as opaque text. -/
theorem forwardShare_success_witness :
    (200 : Nat) ≤ 200 ∧ (200 : Nat) ≤ 299 ∧
    forwardShare ⟨"", "https://x.com/abc", "", [], 3⟩ "http://x" 7 "r"
        (.response 200 "ok-body") okLogs .absent =
      .ok (⟨true, some "ok-body", none⟩,
           .val [⟨genId 7 "r", 7, .success, mkLogPayload ⟨"", "https://x.com/abc", "", [], 3⟩,
                  some "ok-body", none⟩],
           ⟨"http://x", "application/json",
            mkForwardPayload ⟨"", "https://x.com/abc", "", [], 3⟩⟩) := by
  refine ⟨by decide, by decide, ?_⟩
  have h := forwardShare_success ⟨"", "https://x.com/abc", "", [], 3⟩ "http://x" 7 "r"
    .absent 200 "ok-body" (by decide) (by decide)
  simpa [getLogs, readLogsRaw, okLogs] using h

/-- Claim C5: the outbound JSON document POSTed by forwardShare has
    title, text and url equal to null exactly when the corresponding
    ShareData field is empty (and the field's value otherwise), and its
    files field is the ShareData's files array passed through
    unmodified; it is sent to the configured URL with a JSON
    content-type. -/
theorem forwardShare_posts_wire_payload (d : ShareData) (u : String)
    (now : Nat) (rand : String) (outcome : FetchOutcome) (c : LogsCell) :
    ∃ res c2,
      forwardShare d u now rand outcome okLogs c =
        .ok (res, c2, ⟨u, "application/json", mkForwardPayload d⟩) ∧
      (mkForwardPayload d).title = (if d.title = "" then none else some d.title) ∧
      (mkForwardPayload d).text = (if d.text = "" then none else some d.text) ∧
      (mkForwardPayload d).url = (if d.url = "" then none else some d.url) ∧
      (mkForwardPayload d).files = d.files := by
  have ha := addLog_ok okLogs rfl c ⟨now, .pending, mkLogPayload d, none, none⟩ now rand
  have hfmt : (mkForwardPayload d).title = (if d.title = "" then none else some d.title) ∧
      (mkForwardPayload d).text = (if d.text = "" then none else some d.text) ∧
      (mkForwardPayload d).url = (if d.url = "" then none else some d.url) ∧
      (mkForwardPayload d).files = d.files := by
    simp [mkForwardPayload, strOrNull]
  cases outcome with
  | networkError m =>
    exact ⟨_, _, rfl, hfmt⟩
  | response st body =>
    by_cases hok : responseOk st = true
    · exact ⟨_, _, by simp only [forwardShare, exceptOk_bind, hok]; rfl, hfmt⟩
    · rw [Bool.not_eq_true] at hok
      exact ⟨_, _, by simp only [forwardShare, exceptOk_bind, hok]; rfl, hfmt⟩

/-- Dropping the special-casing of the empty string in the log-payload
    field mapping: `s ||  ''` is the identity on strings. -/
theorem strOrEmpty_eq (s : String) : strOrEmpty s = s := by
  by_cases h : s = "" <;> simp [strOrEmpty, h]

/-- forwardShare on healthy log storage never raises. -/
theorem forwardShare_ok (d : ShareData) (u : String) (now : Nat)
    (rand : String) (outcome : FetchOutcome) (c : LogsCell) :
    ∃ out, forwardShare d u now rand outcome okLogs c = .ok out := by
  cases outcome with
  | networkError m => exact ⟨_, rfl⟩
  | response st body =>
    by_cases hok : responseOk st = true
    · exact ⟨_, by simp only [forwardShare, exceptOk_bind, hok]; rfl⟩
    · rw [Bool.not_eq_true] at hok
      exact ⟨_, by simp only [forwardShare, exceptOk_bind, hok]; rfl⟩

/-- Claim C6: update locates the entry by id in the stored sequence; if
    found (first matching index), it sets status and the supplied
    optional fields of exactly that entry — its remaining fields and
    every other entry are untouched, as the set-at-one-index form shows;
    if no entry carries the id, the stored sequence is unchanged.  The
    operation is total (returns a LogsCell, never an exception). -/
theorem updateLogStatus_spec (logs : List LogEntry) (id : String)
    (st : TermStatus) (resp err : Option String) :
    (∀ i l, logs.findIdx? (fun l2 => l2.id == id) = some i → logs[i]? = some l →
      updateLogStatus okLogs (.val logs) id st resp err =
        .val (logs.set i { l with status := st.toStatus,
                                  response := overwriteIfSome resp l.response,
                                  error := overwriteIfSome err l.error })) ∧
    ((∀ l ∈ logs, l.id ≠ id) →
      updateLogStatus okLogs (.val logs) id st resp err = .val logs) := by
  constructor
  · intro i l hfi hgl
    simp [updateLogStatus, readLogsRaw, okLogs, writeLogs, updateLogsList, hfi, hgl]
  · intro hne
    have h0 : logs.findIdx? (fun l2 => l2.id == id) = none := by
      rw [List.findIdx?_eq_none_iff]
      intro x hx
      simpa using hne x hx
    simp [updateLogStatus, readLogsRaw, okLogs, h0]

/-- Concrete runs of updateLogStatus_spec: a present id gets its status
    and response set in place; a missing id leaves the store unchanged. -/
theorem updateLogStatus_spec_witness :
    updateLogStatus okLogs (.val [⟨"a", 1, .pending, ⟨"", "", "", 0⟩, none, none⟩]) "a"
        .success (some "r") none =
      .val [⟨"a", 1, .success, ⟨"", "", "", 0⟩, some "r", none⟩] ∧
    updateLogStatus okLogs (.val [⟨"a", 1, .pending, ⟨"", "", "", 0⟩, none, none⟩]) "b"
        .success none none =
      .val [⟨"a", 1, .pending, ⟨"", "", "", 0⟩, none, none⟩] := by
  constructor
  · have h := (updateLogStatus_spec [⟨"a", 1, .pending, ⟨"", "", "", 0⟩, none, none⟩] "a"
      .success (some "r") none).1 0 ⟨"a", 1, .pending, ⟨"", "", "", 0⟩, none, none⟩
      (by decide) (by decide)
    simpa [overwriteIfSome, TermStatus.toStatus] using h
  · exact (updateLogStatus_spec [⟨"a", 1, .pending, ⟨"", "", "", 0⟩, none, none⟩] "b"
      .success none none).2 (by decide)

/-- Claim C7: on foreground activation with the share-target=pending
    marker, a pending share present in the handoff store, autoRelay true
    and a non-empty relayUrl, the relay engine (forwardShare, via
    performRelay) is invoked with no user action, and afterwards the
    handoff store ends empty — for every relay outcome, success or
    failure alike. -/
theorem autoRelay_invokes_and_clears (cfg : Config) (sd : ShareData)
    (c : LogsCell) (now : Nat) (rand : String) (outcome : FetchOutcome)
    (hA : cfg.autoRelay = true) (hU : cfg.relayUrl ≠ "") :
    ∃ (res : ForwardResult) (c2 : LogsCell),
      onMountShareFlow true cfg okHandoff (some sd) okLogs c now rand outcome =
        .ok ⟨true, none, c2, some res⟩ := by
  obtain ⟨out, hout⟩ := forwardShare_ok sd cfg.relayUrl now rand outcome c
  obtain ⟨res, c2, req⟩ := out
  have hcond : (cfg.autoRelay && !(cfg.relayUrl == "")) = true := by
    simp [hA, hU]
  have hg : getPendingShareData okHandoff (some sd) = .ok (some sd) := rfl
  refine ⟨res, c2, ?_⟩
  simp only [onMountShareFlow, hg, if_true, hcond, performRelay, hout, exceptOk_bind]
  rfl

/-- Concrete run of autoRelay_invokes_and_clears: even a failing relay
    outcome leaves the handoff store empty with the relay invoked. -/
theorem autoRelay_invokes_and_clears_witness :
    (⟨"http://x", true⟩ : Config).autoRelay = true ∧
    (⟨"http://x", true⟩ : Config).relayUrl ≠ "" ∧
    ∃ (res : ForwardResult) (c2 : LogsCell),
      onMountShareFlow true ⟨"http://x", true⟩ okHandoff (some ⟨"", "t", "", [], 1⟩)
          okLogs .absent 7 "r" (.networkError (some "boom")) =
        .ok ⟨true, none, c2, some res⟩ :=
  ⟨rfl, by decide,
   autoRelay_invokes_and_clears ⟨"http://x", true⟩ ⟨"", "t", "", [], 1⟩ .absent 7 "r"
     (.networkError (some "boom")) rfl (by decide)⟩

/-- Claim C8: the Configuration Store load returns the full default
    Config (relayUrl "", autoRelay false) when nothing was saved or any
    read failure occurs, and otherwise the last saved Config; it is a
    total function (never raises).  getConfig is modelled from the spec
    (its implementation is missing from src/); the older source-level
    reader getForwardUrl, present in src/, shows the matching behaviour
    for its single relayUrl field. -/
theorem configLoad_defaults :
    (∀ c : ConfigCell, getConfig true c = defaultConfig) ∧
    getConfig false .absent = defaultConfig ∧
    getConfig false .corrupt = defaultConfig ∧
    (∀ cfg : Config, getConfig false (.val cfg) = cfg) ∧
    defaultConfig = ⟨"", false⟩ ∧
    (∀ c : ForwardConfigCell, getForwardUrl true c = "") ∧
    getForwardUrl false .absent = "" ∧
    getForwardUrl false .corrupt = "" ∧
    (∀ s : String, getForwardUrl false (.val (some s)) = s) ∧
    getForwardUrl false (.val none) = "" := by
  refine ⟨fun c => rfl, rfl, rfl, fun cfg => rfl, rfl, fun c => rfl, rfl, rfl,
    fun s => ?_, rfl⟩
  simp [getForwardUrl, strOrEmpty_eq]

/-- Counterexample to claim C9 as stated: two storage-access failures
    inside core store operations DO propagate to the caller as
    exceptions.  addLog's final setItem is outside any try/catch, so
    append on a store whose writes fail rejects; and getPendingShareData
    returns the inner IndexedDB promise from inside its try without
    awaiting it, so a get-request failure after a successful open
    rejects uncaught. -/
theorem storage_failure_propagates :
    addLog ⟨false, true⟩ (.val []) ⟨0, .pending, ⟨"", "", "", 0⟩, none, none⟩ 0 "r" =
      .error () ∧
    getPendingShareData ⟨false, true, false⟩ (some ⟨"", "", "", [], 0⟩) = .error () :=
  ⟨rfl, rfl⟩

/-- Claim C9 (amended): read and parse failures inside the core store
    operations are recovered locally and surfaced as empty/default
    values — handoff get yields absent when opening the store fails, log
    list yields the empty list on a read failure or a missing/unparsable
    value, config load yields the defaults, and append recovers a read
    failure by starting from the empty list — but a write failure inside
    append, and a get-request failure after a successful open inside
    handoff get, propagate to the caller as exceptions (see the
    counterexample). -/
theorem storage_read_failures_recovered :
    (∀ (w : Bool) (c : LogsCell), getLogs ⟨true, w⟩ c = []) ∧
    (∀ h : LogsHealth, getLogs h .absent = [] ∧ getLogs h .corrupt = []) ∧
    (∀ (g dx : Bool) (slot : Option ShareData),
      getPendingShareData ⟨true, g, dx⟩ slot = .ok none) ∧
    (∀ c : ConfigCell, getConfig true c = defaultConfig) ∧
    getConfig false .absent = defaultConfig ∧
    getConfig false .corrupt = defaultConfig ∧
    (∀ (c : LogsCell) (e : LogEntryNoId) (now : Nat) (rand : String),
      addLog ⟨true, false⟩ c e now rand =
        .ok (.val [withId e (genId now rand)], withId e (genId now rand))) := by
  refine ⟨fun w c => rfl, fun h => ?_, fun g dx slot => rfl, fun c => rfl, rfl, rfl,
    fun c e now rand => rfl⟩
  obtain ⟨r, w⟩ := h
  cases r <;> exact ⟨rfl, rfl⟩

/-- Claim C10: the LogEntry payload built by forwardShare keeps empty
    title/text/url as empty strings and records filesCount as the length
    of the files array, while the simultaneously built outbound JSON
    maps the same empty fields to null — the two representations of an
    absent field differ — and the log payload carries no file bytes: it
    is unchanged when every file's content is replaced by an empty one
    of the same count. -/
theorem logPayload_vs_wirePayload (d : ShareData) :
    mkLogPayload d = ⟨d.title, d.text, d.url, d.files.length⟩ ∧
    (mkForwardPayload d).title = (if d.title = "" then none else some d.title) ∧
    (mkForwardPayload d).text = (if d.text = "" then none else some d.text) ∧
    (mkForwardPayload d).url = (if d.url = "" then none else some d.url) ∧
    mkLogPayload { d with files := List.replicate d.files.length ⟨"", "", ""⟩ } =
      mkLogPayload d := by
  refine ⟨?_, rfl, rfl, rfl, ?_⟩ <;>
    simp [mkLogPayload, strOrEmpty_eq, mkForwardPayload, strOrNull]

/-! ### Status-transition invariant (trace lemmas) -/

/-- The first match within a prefix is the first match of the whole
    list. -/
theorem find?_take {p : LogEntry → Bool} :
    ∀ (l : List LogEntry) (n : Nat) (x : LogEntry),
      (l.take n).find? p = some x → l.find? p = some x := by
  intro l
  induction l with
  | nil => intro n x h; simp at h
  | cons a t ih =>
    intro n x h
    cases n with
    | zero => simp at h
    | succ m =>
      rw [List.take_succ_cons] at h
      by_cases hp : p a
      · rw [List.find?_cons_of_pos _ hp] at h ⊢
        exact h
      · rw [List.find?_cons_of_neg _ hp] at h ⊢
        exact ih m x h

/-- A defined status survives (backwards) an addLogList of an entry with
    a different id: the observed entry was already there. -/
theorem statusOf_addLogList_ne {e : LogEntry} {l : List LogEntry}
    {id : String} (hne : e.id ≠ id) {b : Status}
    (h : statusOf (addLogList e l) id = some b) : statusOf l id = some b := by
  rw [addLogList_eq_take] at h
  unfold statusOf at h ⊢
  obtain ⟨x, hx, hxs⟩ := Option.map_eq_some'.mp h
  have h2 : (e :: l).find? (fun l2 => l2.id == id) = some x := find?_take _ _ _ hx
  rw [List.find?_cons_of_neg _ (by simp [hne])] at h2
  exact Option.map_eq_some'.mpr ⟨x, h2, hxs⟩

/-- Right after its append, an entry's observed status is pending. -/
theorem statusOf_addLogList_self (e : LogEntry) (l : List LogEntry) :
    statusOf (addLogList e l) e.id = some e.status := by
  rw [addLogList_eq_take, take_maxLogs_cons]
  unfold statusOf
  rw [List.find?_cons_of_pos _ (by simp)]
  rfl

/-- find? sees through a set at an index whose entry fails the
    predicate both before and after the set. -/
theorem find?_set_of_neg {p : LogEntry → Bool} :
    ∀ (l : List LogEntry) (i : Nat) (x x' : LogEntry),
      l[i]? = some x → p x = false → p x' = false →
      (l.set i x').find? p = l.find? p := by
  intro l
  induction l with
  | nil => intro i x x' h _ _; simp at h
  | cons a t ih =>
    intro i x x' h hx hx'
    cases i with
    | zero =>
      rw [List.getElem?_cons_zero] at h
      have ha : a = x := Option.some.inj h
      subst ha
      rw [List.set_cons_zero, List.find?_cons_of_neg _ (by simp [hx']),
        List.find?_cons_of_neg _ (by simp [hx])]
    | succ j =>
      rw [List.getElem?_cons_succ] at h
      rw [List.set_cons_succ]
      by_cases hp : p a
      · rw [List.find?_cons_of_pos _ hp, List.find?_cons_of_pos _ hp]
      · rw [List.find?_cons_of_neg _ hp, List.find?_cons_of_neg _ hp]
        exact ih j x x' h hx hx'

/-- The entry at the index reported by findIdx? satisfies the
    predicate. -/
theorem findIdx?_zero_spec {p : LogEntry → Bool} :
    ∀ (l : List LogEntry) (i : Nat), l.findIdx? p = some i →
      ∃ x, l[i]? = some x ∧ p x = true := by
  intro l
  induction l with
  | nil => intro i h; simp [List.findIdx?_nil] at h
  | cons a t ih =>
    intro i h
    rw [List.findIdx?_cons] at h
    by_cases hp : p a
    · rw [if_pos hp] at h
      have h0 : i = 0 := (Option.some.inj h).symm
      subst h0
      exact ⟨a, List.getElem?_cons_zero, hp⟩
    · rw [if_neg hp, List.findIdx?_succ] at h
      obtain ⟨j, hj, hji⟩ := Option.map_eq_some'.mp h
      subst hji
      obtain ⟨x, hx, hpx⟩ := ih j hj
      exact ⟨x, by rw [List.getElem?_cons_succ]; exact hx, hpx⟩

/-- A settle for a different id leaves the observed status of an id
    unchanged. -/
theorem statusOf_updateLogsList_ne (l : List LogEntry) (id id' : String)
    (st : TermStatus) (r er : Option String) (hne : id' ≠ id) :
    statusOf (updateLogsList l id' st r er) id = statusOf l id := by
  cases hfi : l.findIdx? (fun l2 => l2.id == id') with
  | none => simp [updateLogsList, hfi]
  | some i =>
    cases hgl : l[i]? with
    | none => simp [updateLogsList, hfi, hgl]
    | some x =>
      obtain ⟨y, hy, hpy⟩ := findIdx?_zero_spec l i hfi
      rw [hgl] at hy
      have hxy : x = y := Option.some.inj hy
      subst hxy
      have hxid : x.id = id' := by simpa using hpy
      simp only [updateLogsList, hfi, hgl]
      unfold statusOf
      rw [find?_set_of_neg l i x _ hgl (by simp [hxid, hne]) (by simp [hxid, hne])]

/-- find? definedness sees through a set that keeps the entry's id. -/
theorem find?_set_isSome (id : String) (x' : LogEntry) :
    ∀ (l : List LogEntry) (i : Nat) (x : LogEntry),
      l[i]? = some x → x'.id = x.id →
      ((l.set i x').find? (fun l2 => l2.id == id)).isSome =
        (l.find? (fun l2 => l2.id == id)).isSome := by
  intro l
  induction l with
  | nil => intro i x h _; simp at h
  | cons a t ih =>
    intro i x h hid
    cases i with
    | zero =>
      rw [List.getElem?_cons_zero] at h
      have ha : a = x := Option.some.inj h
      rw [List.set_cons_zero]
      by_cases hp : (a.id == id) = true
      · have hp' : (x'.id == id) = true := by rw [hid, ← ha]; exact hp
        rw [@List.find?_cons_of_pos _ (fun l2 => l2.id == id) x' t hp',
          @List.find?_cons_of_pos _ (fun l2 => l2.id == id) a t hp]
        rfl
      · have hp' : ¬(x'.id == id) = true := by rw [hid, ← ha]; exact hp
        rw [@List.find?_cons_of_neg _ (fun l2 => l2.id == id) x' t hp',
          @List.find?_cons_of_neg _ (fun l2 => l2.id == id) a t hp]
    | succ j =>
      rw [List.getElem?_cons_succ] at h
      rw [List.set_cons_succ]
      by_cases hp : (a.id == id) = true
      · rw [@List.find?_cons_of_pos _ (fun l2 => l2.id == id) a (t.set j x') hp,
          @List.find?_cons_of_pos _ (fun l2 => l2.id == id) a t hp]
      · rw [@List.find?_cons_of_neg _ (fun l2 => l2.id == id) a (t.set j x') hp,
          @List.find?_cons_of_neg _ (fun l2 => l2.id == id) a t hp]
        exact ih j x h hid

/-- A settle never makes a previously-undefined status defined: the set
    keeps every id in place. -/
theorem statusOf_updateLogsList_isSome {l : List LogEntry} {id id' : String}
    {st : TermStatus} {r er : Option String} {b : Status}
    (h : statusOf (updateLogsList l id' st r er) id = some b) :
    ∃ b0, statusOf l id = some b0 := by
  cases hfi : l.findIdx? (fun l2 => l2.id == id') with
  | none => simp only [updateLogsList, hfi] at h; exact ⟨b, h⟩
  | some i =>
    cases hgl : l[i]? with
    | none => simp only [updateLogsList, hfi, hgl] at h; exact ⟨b, h⟩
    | some x =>
      simp only [updateLogsList, hfi, hgl] at h
      unfold statusOf at h ⊢
      obtain ⟨z, hz, hzs⟩ := Option.map_eq_some'.mp h
      have hsome := find?_set_isSome id
        { x with status := st.toStatus,
                 response := overwriteIfSome r x.response,
                 error := overwriteIfSome er x.error } l i x hgl rfl
      rw [hz] at hsome
      simp only [Option.isSome_some] at hsome
      obtain ⟨w, hw⟩ := Option.isSome_iff_exists.mp hsome.symm
      exact ⟨w.status, Option.map_eq_some'.mpr ⟨w, hw, rfl⟩⟩

/-- Membership in appendIds is preserved by extending the trace at the
    front. -/
theorem mem_appendIds_cons {op : LogOp} {rest : List LogOp} {id : String}
    (h : id ∈ appendIds rest) : id ∈ appendIds (op :: rest) := by
  cases op with
  | append id2 ts p =>
    show id ∈ id2 :: appendIds rest
    exact List.mem_cons_of_mem _ h
  | settle id2 st r er => exact h
  | clear => exact h

/-- Membership in settleIds is preserved by extending the trace at the
    front. -/
theorem mem_settleIds_cons {op : LogOp} {rest : List LogOp} {id : String}
    (h : id ∈ settleIds rest) : id ∈ settleIds (op :: rest) := by
  cases op with
  | settle id2 st r er =>
    show id ∈ id2 :: settleIds rest
    exact List.mem_cons_of_mem _ h
  | append id2 ts p => exact h
  | clear => exact h

/-- An append at the head of the trace contributes its id. -/
theorem mem_appendIds_head (id : String) (ts : Nat) (p : LogPayload)
    (rest : List LogOp) : id ∈ appendIds (.append id ts p :: rest) := by
  show id ∈ id :: appendIds rest
  exact List.mem_cons_self _ _

/-- A settle at the head of the trace contributes its id. -/
theorem mem_settleIds_head (id : String) (st : TermStatus)
    (r er : Option String) (rest : List LogOp) :
    id ∈ settleIds (.settle id st r er :: rest) := by
  show id ∈ id :: settleIds rest
  exact List.mem_cons_self _ _

/-- One operation that does not target an id cannot have produced its
    defined observed status. -/
theorem statusOf_applyOp_untouched {logs : List LogEntry} {op : LogOp}
    {id : String} {b : Status} (hop : op.targetId ≠ some id)
    (h : statusOf (applyOp logs op) id = some b) : statusOf logs id = some b := by
  cases op with
  | append id' ts p =>
    have hne : id' ≠ id := fun he => hop (by simp [LogOp.targetId, he])
    exact statusOf_addLogList_ne hne h
  | settle id' st r er =>
    have hne : id' ≠ id := fun he => hop (by simp [LogOp.targetId, he])
    rw [show applyOp logs (.settle id' st r er) = updateLogsList logs id' st r er
      from rfl, statusOf_updateLogsList_ne logs id id' st r er hne] at h
    exact h
  | clear => simp [applyOp, statusOf] at h

/-- A defined status is stable (backwards) across any run of operations
    none of which appends or settles the id. -/
theorem statusOf_applyOps_untouched :
    ∀ (ops : List LogOp) (logs : List LogEntry) (id : String) (b : Status),
      id ∉ appendIds ops → id ∉ settleIds ops →
      statusOf (applyOps logs ops) id = some b → statusOf logs id = some b := by
  intro ops
  induction ops with
  | nil => intro logs id b _ _ h; exact h
  | cons op rest ih =>
    intro logs id b hA hS h
    have hA' : id ∉ appendIds rest := fun hm => hA (mem_appendIds_cons hm)
    have hS' : id ∉ settleIds rest := fun hm => hS (mem_settleIds_cons hm)
    have h1 := ih (applyOp logs op) id b hA' hS' h
    refine statusOf_applyOp_untouched ?_ h1
    cases op with
    | append id' ts p =>
      intro he
      have hii : id' = id := by simpa [LogOp.targetId] using he
      refine hA ?_
      show id ∈ id' :: appendIds rest
      rw [hii]
      exact List.mem_cons_self _ _
    | settle id' st r er =>
      intro he
      have hii : id' = id := by simpa [LogOp.targetId] using he
      refine hS ?_
      show id ∈ id' :: settleIds rest
      rw [hii]
      exact List.mem_cons_self _ _
    | clear => simp [LogOp.targetId]

/-- Provenance: a defined status means the id was appended during the
    run or was already present. -/
theorem statusOf_some_appended :
    ∀ (ops : List LogOp) (logs : List LogEntry) (id : String) (a : Status),
      statusOf (applyOps logs ops) id = some a →
      id ∈ appendIds ops ∨ ∃ a0, statusOf logs id = some a0 := by
  intro ops
  induction ops with
  | nil => intro logs id a h; exact .inr ⟨a, h⟩
  | cons op rest ih =>
    intro logs id a h
    rcases ih (applyOp logs op) id a h with hmem | ⟨a0, h0⟩
    · exact .inl (mem_appendIds_cons hmem)
    · cases op with
      | append id' ts p =>
        by_cases he : id' = id
        · refine .inl ?_
          show id ∈ id' :: appendIds rest
          rw [he]
          exact List.mem_cons_self _ _
        · exact .inr ⟨a0, statusOf_addLogList_ne he h0⟩
      | settle id' st r er =>
        obtain ⟨b0, hb0⟩ := statusOf_updateLogsList_isSome h0
        exact .inr ⟨b0, hb0⟩
      | clear => simp [applyOp, statusOf] at h0

/-- Provenance: a terminal observed status means a settle of the id
    happened during the run or the status was already terminal. -/
theorem statusOf_terminal_settled :
    ∀ (ops : List LogOp) (logs : List LogEntry) (id : String) (a : Status),
      statusOf (applyOps logs ops) id = some a → a ≠ .pending →
      id ∈ settleIds ops ∨ statusOf logs id = some a := by
  intro ops
  induction ops with
  | nil => intro logs id a h _; exact .inr h
  | cons op rest ih =>
    intro logs id a h ha
    rcases ih (applyOp logs op) id a h ha with hmem | h0
    · exact .inl (mem_settleIds_cons hmem)
    · cases op with
      | append id' ts p =>
        by_cases he : id' = id
        · rw [show applyOp logs (.append id' ts p) =
            addLogList ⟨id', ts, .pending, p, none, none⟩ logs from rfl, he] at h0
          have hself := statusOf_addLogList_self ⟨id, ts, .pending, p, none, none⟩ logs
          have hself2 : statusOf (addLogList ⟨id, ts, .pending, p, none, none⟩ logs) id
              = some .pending := hself
          rw [h0] at hself2
          exact absurd (Option.some.inj hself2) ha
        · exact .inr (statusOf_addLogList_ne he h0)
      | settle id' st r er =>
        by_cases he : id' = id
        · refine .inl ?_
          show id ∈ id' :: settleIds rest
          rw [he]
          exact List.mem_cons_self _ _
        · rw [show applyOp logs (.settle id' st r er) =
            updateLogsList logs id' st r er from rfl,
            statusOf_updateLogsList_ne logs id id' st r er he] at h0
          exact .inr h0
      | clear => simp [applyOp, statusOf] at h0

/-- Membership in the append/settle ids of a prefix lifts to the whole
    trace. -/
theorem mem_filterMap_take {f : LogOp → Option String} {l : List LogOp}
    {n : Nat} {id : String} (h : id ∈ (l.take n).filterMap f) :
    id ∈ l.filterMap f := by
  obtain ⟨op, hop, hf⟩ := List.mem_filterMap.mp h
  exact List.mem_filterMap.mpr ⟨op, List.take_subset n l hop, hf⟩

/-- Claim C2: every log entry is created with status pending, and over
    every run of the system's log operations from the empty store —
    relay dispatches appending fresh-id pending entries (forwardShare is
    the only addLog caller), each dispatched id settled at most once to
    success or error (updateLogStatus accepts no other status), and
    clears — the observed status of an id changes at most once, from
    pending to a terminal status: it never reverses from a terminal
    status and never re-transitions to a different terminal status. -/
theorem logEntry_status_transitions_once (ops : List LogOp)
    (hN : (appendIds ops).Nodup) (hS : (settleIds ops).Nodup)
    (i j : Nat) (hij : i ≤ j) (id : String) (a b : Status)
    (ha : statusOf (runOps (ops.take i)) id = some a)
    (hb : statusOf (runOps (ops.take j)) id = some b) :
    (∀ (logs : List LogEntry) (ts : Nat) (p : LogPayload),
      statusOf (applyOp logs (.append id ts p)) id = some .pending) ∧
    (a = b ∨ (a = .pending ∧ (b = .success ∨ b = .error))) := by
  constructor
  · intro logs ts p
    exact statusOf_addLogList_self ⟨id, ts, .pending, p, none, none⟩ logs
  · by_cases hap : a = .pending
    · subst hap
      cases b with
      | pending => exact .inl rfl
      | success => exact .inr ⟨rfl, .inl rfl⟩
      | error => exact .inr ⟨rfl, .inr rfl⟩
    · left
      have hj : ops.take j = ops.take i ++ (ops.drop i).take (j - i) := by
        conv_lhs => rw [← Nat.add_sub_cancel' hij]
        rw [List.take_add]
      have hrun : runOps (ops.take j) =
          applyOps (runOps (ops.take i)) ((ops.drop i).take (j - i)) := by
        rw [hj]
        exact List.foldl_append _ _ _ _
      have hsp : id ∈ settleIds (ops.take i) := by
        rcases statusOf_terminal_settled (ops.take i) [] id a ha hap with h | h
        · exact h
        · simp [statusOf] at h
      have happ : id ∈ appendIds (ops.take i) := by
        rcases statusOf_some_appended (ops.take i) [] id a ha with h | ⟨a0, h⟩
        · exact h
        · simp [statusOf] at h
      have hsplitS : settleIds ops = settleIds (ops.take i) ++ settleIds (ops.drop i) := by
        conv_lhs => rw [show ops = ops.take i ++ ops.drop i from
          (List.take_append_drop i ops).symm]
        exact List.filterMap_append _ _ _
      have hsplitA : appendIds ops = appendIds (ops.take i) ++ appendIds (ops.drop i) := by
        conv_lhs => rw [show ops = ops.take i ++ ops.drop i from
          (List.take_append_drop i ops).symm]
        exact List.filterMap_append _ _ _
      have hnsD : id ∉ settleIds (ops.drop i) := by
        rw [hsplitS, List.nodup_append] at hS
        exact fun hm => hS.2.2 hsp hm
      have hnaD : id ∉ appendIds (ops.drop i) := by
        rw [hsplitA, List.nodup_append] at hN
        exact fun hm => hN.2.2 happ hm
      have hnsSeg : id ∉ settleIds ((ops.drop i).take (j - i)) :=
        fun hm => hnsD (mem_filterMap_take hm)
      have hnaSeg : id ∉ appendIds ((ops.drop i).take (j - i)) :=
        fun hm => hnaD (mem_filterMap_take hm)
      rw [hrun] at hb
      have hback := statusOf_applyOps_untouched _ _ _ _ hnaSeg hnsSeg hb
      rw [ha] at hback
      exact Option.some.inj hback

/-- Concrete run of logEntry_status_transitions_once: an entry appended
    pending and settled to success once observes exactly the transition
    pending → success. -/
theorem logEntry_status_transitions_once_witness :
    statusOf (applyOp [] (.append "a" 0 ⟨"", "", "", 0⟩)) "a" = some .pending ∧
    (Status.pending = Status.success ∨
     (Status.pending = Status.pending ∧
      (Status.success = Status.success ∨ Status.success = Status.error))) := by
  have h := logEntry_status_transitions_once
    [LogOp.append "a" 0 ⟨"", "", "", 0⟩, LogOp.settle "a" .success (some "ok") none]
    (by decide) (by decide) 1 2 (by decide) "a" .pending .success
    (by decide) (by decide)
  exact ⟨h.1 [] 0 ⟨"", "", "", 0⟩, h.2⟩

end WebShareRelay
